import Mathlib

set_option maxHeartbeats 1000000

/-!
Verification of the generic repository layer of mongoose-rs.

The development shallowly embeds the BSON document type and the pure /
store-parameterised operations of `src/model.rs` (`normalize_updates`,
`create_pipeline`, `read`, `read_by_id`, `list`, `aggregate_raw`,
`create_view`) together with the error taxonomy of `src/types.rs`, and
proves the specified properties about them.  Effectful inputs (the current
time, the backing store's responses) are made explicit parameters.
-/

/-- BSON values, as far as the verified operations inspect them. -/
inductive Bson where
  | null : Bson
  | str (s : String) : Bson
  | int (n : Int) : Bson
  | time (t : Nat) : Bson
  | document (fields : List (String × Bson)) : Bson

/-- A BSON document: an ordered association list of fields, mirroring
`bson::Document` (which preserves insertion order and has unique keys;
the operations below implement exactly its order-preserving map
semantics). -/
abbrev Doc := List (String × Bson)

namespace Doc

/-- The field names of a document in order (`Document::keys`). -/
def keys (d : Doc) : List String := d.map Prod.fst

/-- Embeds `Document::get`: the value of the first entry with the given key. -/
def get (d : Doc) (k : String) : Option Bson :=
  match d with
  | [] => none
  | p :: t => if p.1 = k then some p.2 else get t k

/-- Embeds `Document::insert`: replace the value in place when the key is already
present (keeping its position, as the underlying index map does), else
append the new entry at the end. -/
def insert (d : Doc) (k : String) (v : Bson) : Doc :=
  if k ∈ keys d then d.map (fun p => if p.1 = k then (k, v) else p)
  else d ++ [(k, v)]

theorem keys_cons (p : String × Bson) (t : Doc) : keys (p :: t) = p.1 :: keys t := rfl

theorem keys_append (d e : Doc) : keys (d ++ e) = keys d ++ keys e := by
  simp [keys]

theorem get_eq_none_of_not_mem {d : Doc} {k : String} (h : k ∉ keys d) :
    get d k = none := by
  induction d with
  | nil => rfl
  | cons p t ih =>
    rw [keys_cons] at h
    have h1 : p.1 ≠ k := fun hk => h (by simp [hk])
    have h2 : k ∉ keys t := fun hk => h (by simp [hk])
    simp [get, h1, ih h2]

theorem get_isSome_of_mem {d : Doc} {k : String} (h : k ∈ keys d) :
    ∃ v, get d k = some v := by
  induction d with
  | nil => simp [keys] at h
  | cons p t ih =>
    by_cases h1 : p.1 = k
    · exact ⟨p.2, by simp [get, h1]⟩
    · rw [keys_cons] at h
      have h2 : k ∈ keys t := by
        rcases List.mem_cons.mp h with h3 | h3
        · exact absurd h3.symm h1
        · exact h3
      obtain ⟨v, hv⟩ := ih h2
      exact ⟨v, by simp [get, h1, hv]⟩

theorem mem_of_get_eq_some {d : Doc} {k : String} {v : Bson}
    (h : get d k = some v) : k ∈ keys d := by
  induction d with
  | nil => simp [get] at h
  | cons p t ih =>
    by_cases h1 : p.1 = k
    · simp [keys_cons, h1.symm]
    · rw [get, if_neg h1] at h
      exact by simp [keys_cons, ih h]

theorem keys_map_repl (d : Doc) (k : String) (v : Bson) :
    keys (d.map (fun p => if p.1 = k then (k, v) else p)) = keys d := by
  induction d with
  | nil => rfl
  | cons p t ih =>
    simp only [List.map_cons, keys_cons, ih]
    by_cases h1 : p.1 = k
    · rw [if_pos h1, h1]
    · rw [if_neg h1]

theorem keys_insert_of_mem {d : Doc} {k : String} (v : Bson) (h : k ∈ keys d) :
    keys (insert d k v) = keys d := by
  rw [insert, if_pos h]
  exact keys_map_repl d k v

theorem insert_of_not_mem {d : Doc} {k : String} (v : Bson) (h : k ∉ keys d) :
    insert d k v = d ++ [(k, v)] := by
  rw [insert, if_neg h]

theorem get_map_repl_self {d : Doc} {k : String} (v : Bson) (h : k ∈ keys d) :
    get (d.map (fun p => if p.1 = k then (k, v) else p)) k = some v := by
  induction d with
  | nil => simp [keys] at h
  | cons p t ih =>
    by_cases h1 : p.1 = k
    · simp [get, h1]
    · have h2 : k ∈ keys t := by
        rw [keys_cons] at h
        rcases List.mem_cons.mp h with h3 | h3
        · exact absurd h3.symm h1
        · exact h3
      simp only [List.map_cons, get, if_neg h1]
      exact ih h2

theorem get_append_right {d e : Doc} {k : String} (h : k ∉ keys d) :
    get (d ++ e) k = get e k := by
  induction d with
  | nil => rfl
  | cons p t ih =>
    rw [keys_cons] at h
    have h1 : p.1 ≠ k := fun hk => h (by simp [hk])
    have h2 : k ∉ keys t := fun hk => h (by simp [hk])
    simpa [get, h1] using ih h2

theorem get_append_left {d e : Doc} {k : String} {v : Bson}
    (h : get d k = some v) : get (d ++ e) k = some v := by
  induction d with
  | nil => simp [get] at h
  | cons p t ih =>
    by_cases h1 : p.1 = k
    · rw [get, if_pos h1] at h
      simpa [get, h1] using h
    · rw [get, if_neg h1] at h
      simpa [get, h1] using ih h

theorem get_insert_self (d : Doc) (k : String) (v : Bson) :
    get (insert d k v) k = some v := by
  by_cases h : k ∈ keys d
  · rw [insert, if_pos h]
    exact get_map_repl_self v h
  · rw [insert_of_not_mem v h, get_append_right h]
    simp [get]

theorem get_map_repl_ne {k k' : String} (d : Doc) (v : Bson) (h : k' ≠ k) :
    get (d.map (fun p => if p.1 = k then (k, v) else p)) k' = get d k' := by
  induction d with
  | nil => rfl
  | cons p t ih =>
    by_cases h1 : p.1 = k
    · have h2 : p.1 ≠ k' := fun hk => h (hk.symm.trans h1)
      simp only [List.map_cons, if_pos h1, get]
      rw [if_neg (fun hk => h hk.symm), if_neg h2]
      exact ih
    · simp only [List.map_cons, if_neg h1, get]
      by_cases h2 : p.1 = k'
      · rw [if_pos h2, if_pos h2]
      · rw [if_neg h2, if_neg h2]
        exact ih

theorem get_insert_ne {k k' : String} (d : Doc) (v : Bson) (h : k' ≠ k) :
    get (insert d k v) k' = get d k' := by
  by_cases hm : k ∈ keys d
  · rw [insert, if_pos hm]
    exact get_map_repl_ne d v h
  · rw [insert_of_not_mem v hm]
    by_cases h2 : k' ∈ keys d
    · obtain ⟨w, hw⟩ := get_isSome_of_mem h2
      rw [hw, get_append_left hw]
    · rw [get_append_right h2, get_eq_none_of_not_mem h2]
      simp [get, Ne.symm h]

theorem mem_keys_insert_self (d : Doc) (k : String) (v : Bson) :
    k ∈ keys (insert d k v) := by
  by_cases h : k ∈ keys d
  · rw [keys_insert_of_mem v h]; exact h
  · rw [insert_of_not_mem v h, keys_append]
    simp [keys]

theorem mem_keys_insert_of_mem {d : Doc} {k' : String} (k : String) (v : Bson)
    (h : k' ∈ keys d) : k' ∈ keys (insert d k v) := by
  by_cases hm : k ∈ keys d
  · rw [keys_insert_of_mem v hm]; exact h
  · rw [insert_of_not_mem v hm, keys_append]
    exact List.mem_append_left _ h

theorem mem_keys_insert_elim {d : Doc} {k k' : String} {v : Bson}
    (h : k' ∈ keys (insert d k v)) : k' ∈ keys d ∨ k' = k := by
  by_cases hm : k ∈ keys d
  · rw [keys_insert_of_mem v hm] at h
    exact Or.inl h
  · rw [insert_of_not_mem v hm, keys_append] at h
    rcases List.mem_append.mp h with h1 | h1
    · exact Or.inl h1
    · simp [keys] at h1
      exact Or.inr h1

theorem nodup_keys_insert {d : Doc} (k : String) (v : Bson)
    (h : (keys d).Nodup) : (keys (insert d k v)).Nodup := by
  by_cases hm : k ∈ keys d
  · rw [keys_insert_of_mem v hm]; exact h
  · rw [insert_of_not_mem v hm, keys_append]
    simp only [keys, List.map_cons, List.map_nil]
    refine List.Nodup.append h (List.nodup_singleton k) ?_
    intro a ha hb
    rw [List.mem_singleton] at hb
    exact hm (hb ▸ ha)

theorem get_of_mem_nodup {d : Doc} {p : String × Bson}
    (hd : (keys d).Nodup) (hp : p ∈ d) : get d p.1 = some p.2 := by
  induction d with
  | nil => simp at hp
  | cons q t ih =>
    rw [keys_cons, List.nodup_cons] at hd
    rcases List.mem_cons.mp hp with h1 | h1
    · rw [h1, get, if_pos rfl]
    · have hp1 : p.1 ∈ keys t := List.mem_map_of_mem Prod.fst h1
      have hne : q.1 ≠ p.1 := fun hk => hd.1 (by rw [hk]; exact hp1)
      rw [get, if_neg hne]
      exact ih hd.2 h1

end Doc

/-- The error taxonomy of `src/types.rs` (`MongooseError`): one operation-scoped
kind per repository operation, each carrying the record name as context. -/
inductive MongooseError where
  | NotFound (name : String)
  | InsertOne (name : String)
  | BulkInsert (name : String)
  | List (name : String)
  | Update (name : String)
  | BulkUpdate (name : String)
  | Delete (name : String)
  | BulkDelete (name : String)
  | Count (name : String)
  | Aggregate (name : String)
  | CreateIndex (name : String)

/-- Failures reported by the backing store (mongodb's native error type, seen
abstractly): transport/protocol failures, and the "namespace already exists"
rejection raised when a view/collection with the requested name is present. -/
inductive StoreErr where
  | transport (msg : String)
  | namespaceExists

/-- A BSON-to-record decode failure (`bson::from_document` erring). -/
structure DecodeErr where
  msg : String

/-- Embeds Rust `key.starts_with('$')`: whether the first character of the key
is the operator marker. -/
def startsWithDollar (k : String) : Bool :=
  match k.data with
  | [] => false
  | c :: _ => c = '$'

namespace Model

/-- One step of the key fold inside `Model::normalize_updates`
(src/model.rs:105-119): component 1 is Rust's `acc.0` (the future `$set`
bucket), component 2 is Rust's `acc.1` (the operator buckets). -/
def normStep (updates : Doc) (acc : Doc × Doc) (key : String) : Doc × Doc :=
  match Doc.get updates key with
  | none => acc
  | some v =>
    if key = "$set" then acc
    else if startsWithDollar key then (acc.1, Doc.insert acc.2 key v)
    else (Doc.insert acc.1 key v, acc.2)

/-- Embeds `Model::normalize_updates` (src/model.rs:101-126), with the effectful
`chrono::Utc::now()` made an explicit `now` parameter: fold the update
description's keys into a `$set` bucket and operator buckets, then insert the
timestamp and the rebuilt `$set` bucket. -/
def normalize_updates (now : Bson) (updates : Doc) : Doc :=
  let acc := List.foldl (normStep updates) ([], []) (Doc.keys updates)
  Doc.insert acc.2 "$set" (Bson.document (Doc.insert acc.1 "updated_at" now))

/-- The keys of the replacement (`$set`) bucket of a normalized update
document. -/
def setBucketKeys (d : Doc) : List String :=
  match Doc.get d "$set" with
  | some (Bson.document s) => Doc.keys s
  | _ => []

theorem normStep_at_set (u : Doc) (acc : Doc × Doc) : normStep u acc "$set" = acc := by
  unfold normStep
  cases Doc.get u "$set" <;> simp

theorem normStep_ops_dollar {u : Doc} {acc : Doc × Doc} {key : String}
    (h : ∀ k ∈ Doc.keys acc.2, startsWithDollar k = true ∧ k ≠ "$set") :
    ∀ k ∈ Doc.keys (normStep u acc key).2, startsWithDollar k = true ∧ k ≠ "$set" := by
  unfold normStep
  cases hg : Doc.get u key with
  | none => exact h
  | some v =>
    by_cases h1 : key = "$set"
    · simpa [h1] using h
    · by_cases h2 : startsWithDollar key
      · simp only [if_neg h1, if_pos h2]
        intro k hk
        rcases Doc.mem_keys_insert_elim hk with h3 | h3
        · exact h k h3
        · subst h3; exact ⟨h2, h1⟩
      · simpa [if_neg h1, h2] using h

theorem normStep_set_nondollar {u : Doc} {acc : Doc × Doc} {key : String}
    (h : ∀ k ∈ Doc.keys acc.1, startsWithDollar k = false) :
    ∀ k ∈ Doc.keys (normStep u acc key).1, startsWithDollar k = false := by
  unfold normStep
  cases hg : Doc.get u key with
  | none => exact h
  | some v =>
    by_cases h1 : key = "$set"
    · simpa [h1] using h
    · by_cases h2 : startsWithDollar key
      · simpa [if_neg h1, if_pos h2] using h
      · simp only [if_neg h1, if_neg h2]
        intro k hk
        rcases Doc.mem_keys_insert_elim hk with h3 | h3
        · exact h k h3
        · subst h3; exact Bool.of_not_eq_true h2

theorem normStep_nodup_ops {u : Doc} {acc : Doc × Doc} {key : String}
    (h : (Doc.keys acc.2).Nodup) : (Doc.keys (normStep u acc key).2).Nodup := by
  unfold normStep
  cases hg : Doc.get u key with
  | none => exact h
  | some v =>
    by_cases h1 : key = "$set"
    · simpa [h1] using h
    · by_cases h2 : startsWithDollar key
      · simpa [if_neg h1, if_pos h2] using Doc.nodup_keys_insert key v h
      · simpa [if_neg h1, h2] using h

theorem normStep_ops_mono {u : Doc} {acc : Doc × Doc} {key k : String}
    (h : k ∈ Doc.keys acc.2) : k ∈ Doc.keys (normStep u acc key).2 := by
  unfold normStep
  cases hg : Doc.get u key with
  | none => exact h
  | some v =>
    by_cases h1 : key = "$set"
    · simpa [h1] using h
    · by_cases h2 : startsWithDollar key
      · simpa [if_neg h1, if_pos h2] using Doc.mem_keys_insert_of_mem key v h
      · simpa [if_neg h1, h2] using h

theorem normStep_set_mono {u : Doc} {acc : Doc × Doc} {key k : String}
    (h : k ∈ Doc.keys acc.1) : k ∈ Doc.keys (normStep u acc key).1 := by
  unfold normStep
  cases hg : Doc.get u key with
  | none => exact h
  | some v =>
    by_cases h1 : key = "$set"
    · simpa [h1] using h
    · by_cases h2 : startsWithDollar key
      · simpa [if_neg h1, if_pos h2] using h
      · simpa [if_neg h1, h2] using Doc.mem_keys_insert_of_mem key v h

theorem fold_ops_dollar (u : Doc) (ks : List String) (acc : Doc × Doc)
    (h : ∀ k ∈ Doc.keys acc.2, startsWithDollar k = true ∧ k ≠ "$set") :
    ∀ k ∈ Doc.keys (List.foldl (normStep u) acc ks).2,
      startsWithDollar k = true ∧ k ≠ "$set" := by
  induction ks generalizing acc with
  | nil => exact h
  | cons key t ih => exact ih _ (normStep_ops_dollar h)

theorem fold_set_nondollar (u : Doc) (ks : List String) (acc : Doc × Doc)
    (h : ∀ k ∈ Doc.keys acc.1, startsWithDollar k = false) :
    ∀ k ∈ Doc.keys (List.foldl (normStep u) acc ks).1, startsWithDollar k = false := by
  induction ks generalizing acc with
  | nil => exact h
  | cons key t ih => exact ih _ (normStep_set_nondollar h)

theorem fold_nodup_ops (u : Doc) (ks : List String) (acc : Doc × Doc)
    (h : (Doc.keys acc.2).Nodup) : (Doc.keys (List.foldl (normStep u) acc ks).2).Nodup := by
  induction ks generalizing acc with
  | nil => exact h
  | cons key t ih => exact ih _ (normStep_nodup_ops h)

theorem fold_ops_mono (u : Doc) (ks : List String) (acc : Doc × Doc) (k : String)
    (h : k ∈ Doc.keys acc.2) : k ∈ Doc.keys (List.foldl (normStep u) acc ks).2 := by
  induction ks generalizing acc with
  | nil => exact h
  | cons key t ih => exact ih _ (normStep_ops_mono h)

theorem fold_set_mono (u : Doc) (ks : List String) (acc : Doc × Doc) (k : String)
    (h : k ∈ Doc.keys acc.1) : k ∈ Doc.keys (List.foldl (normStep u) acc ks).1 := by
  induction ks generalizing acc with
  | nil => exact h
  | cons key t ih => exact ih _ (normStep_set_mono h)

theorem fold_captures_ops (u : Doc) (ks : List String) (acc : Doc × Doc)
    (k : String) (v : Bson) (hk : k ∈ ks) (hg : Doc.get u k = some v)
    (hd : startsWithDollar k = true) (hne : k ≠ "$set") :
    k ∈ Doc.keys (List.foldl (normStep u) acc ks).2 := by
  induction ks generalizing acc with
  | nil => simp at hk
  | cons key t ih =>
    rcases List.mem_cons.mp hk with h1 | h1
    · subst h1
      refine fold_ops_mono u t _ k ?_
      have hstep : normStep u acc k = (acc.1, Doc.insert acc.2 k v) := by
        simp [normStep, hg, hne, hd]
      rw [hstep]
      exact Doc.mem_keys_insert_self _ _ _
    · exact ih _ h1

theorem fold_captures_set (u : Doc) (ks : List String) (acc : Doc × Doc)
    (k : String) (v : Bson) (hk : k ∈ ks) (hg : Doc.get u k = some v)
    (hd : startsWithDollar k = false) :
    k ∈ Doc.keys (List.foldl (normStep u) acc ks).1 := by
  induction ks generalizing acc with
  | nil => simp at hk
  | cons key t ih =>
    rcases List.mem_cons.mp hk with h1 | h1
    · subst h1
      have hne : k ≠ "$set" := by
        intro h
        subst h
        simp [startsWithDollar] at hd
      refine fold_set_mono u t _ k ?_
      have hstep : normStep u acc k = (Doc.insert acc.1 k v, acc.2) := by
        simp [normStep, hg, hne, hd]
      rw [hstep]
      exact Doc.mem_keys_insert_self _ _ _
    · exact ih _ h1

theorem startsWithDollar_updated_at : startsWithDollar "updated_at" = false := by decide

theorem startsWithDollar_dollar_set : startsWithDollar "$set" = true := by decide

theorem nil_keys_vacuous (P : String → Prop) : ∀ k ∈ Doc.keys ([] : Doc), P k := by
  simp [Doc.keys]

/-- The normalized document is the accumulated operator buckets with the rebuilt
`$set` bucket appended at the end. -/
theorem normalize_updates_shape (now : Bson) (u : Doc) :
    normalize_updates now u =
      (List.foldl (normStep u) ([], []) (Doc.keys u)).2 ++
        [("$set", Bson.document
          (Doc.insert (List.foldl (normStep u) ([], []) (Doc.keys u)).1 "updated_at" now))] := by
  have h1 : "$set" ∉ Doc.keys (List.foldl (normStep u) ([], []) (Doc.keys u)).2 := by
    intro hmem
    exact (fold_ops_dollar u (Doc.keys u) ([], [])
      (nil_keys_vacuous _) "$set" hmem).2 rfl
  unfold normalize_updates
  exact Doc.insert_of_not_mem _ h1

theorem get_set_normalize_updates (now : Bson) (u : Doc) :
    Doc.get (normalize_updates now u) "$set" =
      some (Bson.document
        (Doc.insert (List.foldl (normStep u) ([], []) (Doc.keys u)).1 "updated_at" now)) := by
  rw [normalize_updates_shape]
  rw [Doc.get_append_right (by
    intro hmem
    exact (fold_ops_dollar u (Doc.keys u) ([], [])
      (nil_keys_vacuous _) "$set" hmem).2 rfl)]
  simp [Doc.get]

theorem setBucketKeys_normalize_updates (now : Bson) (u : Doc) :
    setBucketKeys (normalize_updates now u) =
      Doc.keys (Doc.insert (List.foldl (normStep u) ([], []) (Doc.keys u)).1
        "updated_at" now) := by
  rw [setBucketKeys, get_set_normalize_updates]

end Model

/-- Claim C2: for every update description `D` and key `k` of `D`, if `k`
begins with the operator marker `'$'` and is not the reserved `"$set"` key then
`k` appears as a top-level operator bucket of `normalize_updates(D)` and never
inside the replacement (`$set`) bucket; and if `k` does not begin with `'$'`
then `k` appears inside the replacement bucket and never as a top-level
operator bucket. -/
theorem normalize_updates_partition (u : Doc) (now : Bson) (k : String)
    (hk : k ∈ Doc.keys u) :
    (startsWithDollar k = true → k ≠ "$set" →
      k ∈ Doc.keys (Model.normalize_updates now u) ∧
      k ∉ Model.setBucketKeys (Model.normalize_updates now u))
    ∧ (startsWithDollar k = false →
      k ∈ Model.setBucketKeys (Model.normalize_updates now u) ∧
      k ∉ Doc.keys (Model.normalize_updates now u)) := by
  obtain ⟨v, hg⟩ := Doc.get_isSome_of_mem hk
  constructor
  · intro hd hne
    constructor
    · rw [Model.normalize_updates_shape, Doc.keys_append]
      exact List.mem_append_left _
        (Model.fold_captures_ops u (Doc.keys u) ([], []) k v hk hg hd hne)
    · rw [Model.setBucketKeys_normalize_updates]
      intro hmem
      rcases Doc.mem_keys_insert_elim hmem with h1 | h1
      · have := Model.fold_set_nondollar u (Doc.keys u) ([], [])
          (Model.nil_keys_vacuous _) k h1
        rw [hd] at this
        simp at this
      · rw [h1] at hd
        rw [Model.startsWithDollar_updated_at] at hd
        simp at hd
  · intro hd
    constructor
    · rw [Model.setBucketKeys_normalize_updates]
      exact Doc.mem_keys_insert_of_mem _ _
        (Model.fold_captures_set u (Doc.keys u) ([], []) k v hk hg hd)
    · rw [Model.normalize_updates_shape, Doc.keys_append]
      intro hmem
      rcases List.mem_append.mp hmem with h1 | h1
      · have := (Model.fold_ops_dollar u (Doc.keys u) ([], [])
          (Model.nil_keys_vacuous _) k h1).1
        rw [hd] at this
        simp at this
      · simp only [Doc.keys, List.map_cons, List.map_nil, List.mem_singleton] at h1
        rw [h1, Model.startsWithDollar_dollar_set] at hd
        simp at hd

/-- Witness for C2, at the concrete update description
`[("$inc", 1), ("age", 2)]`. -/
theorem normalize_updates_partition_wit :
    ("$inc" ∈ Doc.keys
        (Model.normalize_updates (Bson.time 0) [("$inc", Bson.int 1), ("age", Bson.int 2)]) ∧
      "$inc" ∉ Model.setBucketKeys
        (Model.normalize_updates (Bson.time 0) [("$inc", Bson.int 1), ("age", Bson.int 2)])) :=
  (normalize_updates_partition [("$inc", Bson.int 1), ("age", Bson.int 2)]
    (Bson.time 0) "$inc" (by decide)).1 (by decide) (by decide)

namespace Model

theorem normStep_congr {u₁ u₂ : Doc} {k : String}
    (hg : Doc.get u₁ k = Doc.get u₂ k) (a : Doc × Doc) :
    normStep u₁ a k = normStep u₂ a k := by
  unfold normStep
  rw [hg]

theorem fold_congr (u₁ u₂ : Doc) (ks : List String) (acc : Doc × Doc)
    (h : ∀ k ∈ ks, ∀ a, normStep u₁ a k = normStep u₂ a k) :
    List.foldl (normStep u₁) acc ks = List.foldl (normStep u₂) acc ks := by
  induction ks generalizing acc with
  | nil => rfl
  | cons key t ih =>
    rw [List.foldl_cons, List.foldl_cons, h key (List.mem_cons_self key t) acc]
    exact ih _ (fun k hk a => h k (List.mem_cons_of_mem key hk) a)

/-- The key fold of `normalize_updates` ignores a caller-supplied `$set`
entry entirely: inserting any value at `"$set"` leaves the fold unchanged. -/
theorem fold_insert_set (u : Doc) (v : Bson) :
    List.foldl (normStep (Doc.insert u "$set" v)) ([], [])
        (Doc.keys (Doc.insert u "$set" v))
      = List.foldl (normStep u) ([], []) (Doc.keys u) := by
  by_cases hm : "$set" ∈ Doc.keys u
  · rw [Doc.keys_insert_of_mem v hm]
    refine fold_congr _ _ _ _ ?_
    intro k hk a
    by_cases hks : k = "$set"
    · subst hks
      rw [normStep_at_set, normStep_at_set]
    · exact normStep_congr (Doc.get_insert_ne u v hks) a
  · rw [Doc.insert_of_not_mem v hm, Doc.keys_append]
    have hkeys1 : Doc.keys [(("$set" : String), v)] = ["$set"] := rfl
    rw [hkeys1, List.foldl_append]
    have hstep : ∀ acc : Doc × Doc,
        List.foldl (normStep (u ++ [("$set", v)])) acc ["$set"] = acc := by
      intro acc
      simp only [List.foldl_cons, List.foldl_nil]
      exact normStep_at_set _ _
    rw [hstep]
    refine fold_congr _ _ _ _ ?_
    intro k hk a
    have hks : k ≠ "$set" := fun h => hm (h ▸ hk)
    obtain ⟨w, hw⟩ := Doc.get_isSome_of_mem hk
    refine normStep_congr ?_ a
    rw [hw, Doc.get_append_left hw]

end Model

/-- Claim C3: `normalize_updates` always emits a `$set` bucket whose
`updated_at` field is the server time at normalization, and a caller-supplied
`"$set"` entry is discarded entirely (the output does not depend on it). -/
theorem normalize_updates_timestamp_guard (u : Doc) (now : Bson) :
    (∃ s, Doc.get (Model.normalize_updates now u) "$set" = some (Bson.document s) ∧
      Doc.get s "updated_at" = some now)
    ∧ ∀ v, Model.normalize_updates now (Doc.insert u "$set" v)
        = Model.normalize_updates now u := by
  constructor
  · exact ⟨_, Model.get_set_normalize_updates now u, Doc.get_insert_self _ _ _⟩
  · intro v
    show Doc.insert _ "$set" _ = Doc.insert _ "$set" _
    rw [Model.fold_insert_set]

namespace Model

/-- Folding `normStep` over a block of operator entries that the source
document answers faithfully appends the block to the operator accumulator and
leaves the `$set` accumulator untouched. -/
theorem fold_renorm (out : Doc) (ops : Doc) (acc1 acc2 : Doc)
    (hget : ∀ p ∈ ops, Doc.get out p.1 = some p.2)
    (hdollar : ∀ k ∈ Doc.keys ops, startsWithDollar k = true ∧ k ≠ "$set")
    (hnodup : (Doc.keys ops).Nodup)
    (hdisj : ∀ k ∈ Doc.keys ops, k ∉ Doc.keys acc2) :
    List.foldl (normStep out) (acc1, acc2) (Doc.keys ops) = (acc1, acc2 ++ ops) := by
  induction ops generalizing acc2 with
  | nil => simp [Doc.keys]
  | cons p t ih =>
    have hp1 : p.1 ∈ Doc.keys (p :: t) := by simp [Doc.keys]
    have hd := hdollar p.1 hp1
    have hstep : normStep out (acc1, acc2) p.1 = (acc1, Doc.insert acc2 p.1 p.2) := by
      simp [normStep, hget p (List.mem_cons_self p t), hd.2, hd.1]
    have hfresh : p.1 ∉ Doc.keys acc2 := hdisj p.1 hp1
    rw [Doc.keys_cons, List.foldl_cons, hstep, Doc.insert_of_not_mem _ hfresh]
    rw [Doc.keys_cons, List.nodup_cons] at hnodup
    have ht := ih (acc2 ++ [(p.1, p.2)])
      (fun q hq => hget q (List.mem_cons_of_mem p hq))
      (fun k hk => hdollar k (by rw [Doc.keys_cons]; exact List.mem_cons_of_mem _ hk))
      hnodup.2
      ?_
    · rw [ht]
      simp
    · intro k hk hmem
      rw [Doc.keys_append] at hmem
      rcases List.mem_append.mp hmem with h1 | h1
      · exact hdisj k (by rw [Doc.keys_cons]; exact List.mem_cons_of_mem _ hk) h1
      · simp only [Doc.keys, List.map_cons, List.map_nil, List.mem_singleton] at h1
        exact hnodup.1 (h1 ▸ hk)

theorem filter_ne_set_eq_self {ops : Doc} (h : ∀ k ∈ Doc.keys ops, k ≠ "$set") :
    ops.filter (fun p => p.1 != "$set") = ops := by
  induction ops with
  | nil => rfl
  | cons p t ih =>
    have h1 : p.1 ≠ "$set" := h p.1 (by simp [Doc.keys])
    have h2 : (p.1 != "$set") = true := by simpa [bne_iff_ne] using h1
    rw [List.filter_cons, if_pos h2, ih (fun k hk => h k (by
      rw [Doc.keys_cons]; exact List.mem_cons_of_mem _ hk))]

/-- Renormalizing any document of the canonical shape (operator entries
followed by one `$set` entry) keeps the operator entries and rebuilds the
`$set` bucket with only the fresh timestamp. -/
theorem renorm_of_shape (out ops : Doc) (X : Bson) (t₂ : Bson)
    (hout : out = ops ++ [("$set", X)])
    (hdollar : ∀ k ∈ Doc.keys ops, startsWithDollar k = true ∧ k ≠ "$set")
    (hnodup : (Doc.keys ops).Nodup) :
    normalize_updates t₂ out = ops ++ [("$set", Bson.document [("updated_at", t₂)])] := by
  subst hout
  have hsetnot : "$set" ∉ Doc.keys ops := fun h => (hdollar _ h).2 rfl
  have hkeys : Doc.keys (ops ++ [("$set", X)]) = Doc.keys ops ++ ["$set"] := by
    rw [Doc.keys_append]; rfl
  have hget : ∀ p ∈ ops, Doc.get (ops ++ [("$set", X)]) p.1 = some p.2 :=
    fun p hp => Doc.get_append_left (Doc.get_of_mem_nodup hnodup hp)
  have h1 : List.foldl (normStep (ops ++ [("$set", X)])) ([], []) (Doc.keys ops)
      = ([], ops) := by
    have := fold_renorm (ops ++ [("$set", X)]) ops [] [] hget hdollar hnodup
      (by simp [Doc.keys])
    simpa using this
  have hfold : List.foldl (normStep (ops ++ [("$set", X)])) ([], [])
      (Doc.keys (ops ++ [("$set", X)])) = (([] : Doc), ops) := by
    rw [hkeys, List.foldl_append, h1]
    simp only [List.foldl_cons, List.foldl_nil]
    exact normStep_at_set _ _
  show Doc.insert _ "$set" _ = _
  rw [hfold]
  exact Doc.insert_of_not_mem _ hsetnot

end Model

/-- Counterexample to claim C4: normalizing twice is not idempotent on the
non-timestamp keys.  For the update description `[("name", 1)]` the key
`"name"` is in the replacement bucket after one normalization but lost after
a second one ($set buckets are skipped when re-read as input). -/
theorem normalize_updates_not_idempotent_cex :
    "name" ∈ Model.setBucketKeys
        (Model.normalize_updates (Bson.time 0) [("name", Bson.int 1)])
    ∧ "name" ∉ Model.setBucketKeys
        (Model.normalize_updates (Bson.time 1)
          (Model.normalize_updates (Bson.time 0) [("name", Bson.int 1)])) := by
  decide

/-- Claim C4, amended: renormalizing a normalized update preserves the
operator buckets exactly (same keys, values and order), but the replacement
bucket of the second normalization contains only the freshly injected
`updated_at` timestamp — the non-operator keys of the original description do
not survive, so idempotence holds on operator keys only. -/
theorem normalize_updates_renormalize (u : Doc) (t₁ t₂ : Bson) :
    Model.normalize_updates t₂ (Model.normalize_updates t₁ u)
      = (Model.normalize_updates t₁ u).filter (fun p => p.1 != "$set")
        ++ [("$set", Bson.document [("updated_at", t₂)])] := by
  have hdollar := Model.fold_ops_dollar u (Doc.keys u) ([], [])
    (Model.nil_keys_vacuous _)
  have hnodup := Model.fold_nodup_ops u (Doc.keys u) ([], []) (by simp [Doc.keys])
  have h2 := Model.renorm_of_shape _ _ _ t₂ (Model.normalize_updates_shape t₁ u)
    hdollar hnodup
  rw [h2]
  congr 1
  rw [Model.normalize_updates_shape t₁ u, List.filter_append]
  rw [Model.filter_ne_set_eq_self (fun k hk => (hdollar k hk).2)]
  simp

/-- Embeds `LookupStage` (src/types.rs): the data of a `$lookup` stage.  The Rust
field `from` is spelled `from_coll` here because `from` is reserved in Lean. -/
structure LookupStage where
  from_coll : String
  local_field : String
  foreign_field : String
  as_field : String

/-- Embeds `PipelineStage` (src/types.rs): the closed set of typed aggregation
stages. -/
inductive PipelineStage where
  | Match (d : Doc) : PipelineStage
  | Lookup (l : LookupStage) : PipelineStage
  | Project (d : Doc) : PipelineStage
  | Unwind (path : String) : PipelineStage
  | AddFields (d : Doc) : PipelineStage
  | Limit (n : Int) : PipelineStage
  | Sort (d : Doc) : PipelineStage

namespace Model

/-- Embeds `Model::create_pipeline` (src/model.rs:80-100): translate each typed stage
into its raw document, in order. -/
def create_pipeline (pipeline : List PipelineStage) : List Doc :=
  pipeline.map (fun stage =>
    match stage with
    | PipelineStage.Match d => [("$match", Bson.document d)]
    | PipelineStage.Lookup l =>
        [("$lookup", Bson.document
          [("from", Bson.str l.from_coll), ("localField", Bson.str l.local_field),
           ("foreignField", Bson.str l.foreign_field), ("as", Bson.str l.as_field)])]
    | PipelineStage.Project d => [("$project", Bson.document d)]
    | PipelineStage.Unwind path => [("$unwind", Bson.document [("path", Bson.str path)])]
    | PipelineStage.AddFields d => [("$addFields", Bson.document d)]
    | PipelineStage.Limit n => [("$limit", Bson.int n)]
    | PipelineStage.Sort d => [("$sort", Bson.document d)])

end Model

/-- The per-stage raw translation the specification describes: each stage kind
maps to its raw document, independently of any other stage. -/
def stageDoc : PipelineStage → Doc
  | PipelineStage.Match d => [("$match", Bson.document d)]
  | PipelineStage.Lookup l =>
      [("$lookup", Bson.document
        [("from", Bson.str l.from_coll), ("localField", Bson.str l.local_field),
         ("foreignField", Bson.str l.foreign_field), ("as", Bson.str l.as_field)])]
  | PipelineStage.Project d => [("$project", Bson.document d)]
  | PipelineStage.Unwind path => [("$unwind", Bson.document [("path", Bson.str path)])]
  | PipelineStage.AddFields d => [("$addFields", Bson.document d)]
  | PipelineStage.Limit n => [("$limit", Bson.int n)]
  | PipelineStage.Sort d => [("$sort", Bson.document d)]

theorem create_pipeline_eq_map (S : List PipelineStage) :
    Model.create_pipeline S = S.map stageDoc := by
  induction S with
  | nil => rfl
  | cons s t ih =>
    cases s <;> simp [Model.create_pipeline, stageDoc]

/-- Claim C5: `create_pipeline` preserves length and order — the Nth output
document is the raw translation (`stageDoc`) of the Nth input stage, and that
translation depends only on the stage itself. -/
theorem create_pipeline_pointwise (S : List PipelineStage) :
    (Model.create_pipeline S).length = S.length
    ∧ ∀ i : Nat, (Model.create_pipeline S)[i]? = (S[i]?).map stageDoc := by
  rw [create_pipeline_eq_map]
  exact ⟨List.length_map _ _, fun i => List.getElem?_map _ _ _⟩

namespace Model

/-- Embeds `Model::read` (src/model.rs:157-172).  The backing store's `find_one` is a
parameter mapping the filter to either a transport failure or an optional
matching document; the Rust code maps `Ok(None)` and `Err(_)` both through
`MongooseError::NotFound`. -/
def read (name : String) (store : Doc → Except StoreErr (Option α))
    (filter : Doc) : Except MongooseError α :=
  match store filter with
  | Except.ok result =>
    match result with
    | none => Except.error (MongooseError.NotFound name)
    | some r => Except.ok r
  | Except.error _ => Except.error (MongooseError.NotFound name)

/-- Embeds `Model::read_by_id` (src/model.rs:174-176): `read` with the `_id` filter. -/
def read_by_id (name : String) (store : Doc → Except StoreErr (Option α))
    (id : String) : Except MongooseError α :=
  read name store [("_id", Bson.str id)]

/-- Embeds `Model::create_view` (src/model.rs:32-54): run the store's
`create_collection` (with the view options) and collapse the outcome to a
`Bool`, logging and swallowing every error. -/
def create_view (name : String)
    (store : String → String → List Doc → Except StoreErr Unit)
    (source : String) (pipeline : List Doc) : Bool :=
  match store name source pipeline with
  | Except.ok _ => true
  | Except.error _ => false

end Model

/-- Counterexample to claim C1: a transport failure of the backing-store query
produces exactly the same `NotFound` error as a query that matches zero
documents, so the two outcomes are *not* distinguishable by the caller. -/
theorem read_transport_error_conflated_cex :
    Model.read "users" (fun _ => Except.error (StoreErr.transport "io error"))
        ([] : Doc)
      = Model.read "users" (fun _ => Except.ok (none : Option Unit)) ([] : Doc)
    ∧ Model.read "users" (fun _ => Except.error (StoreErr.transport "io error"))
        ([] : Doc)
      = (Except.error (MongooseError.NotFound "users") : Except MongooseError Unit) :=
  ⟨rfl, rfl⟩

/-- Claim C1, amended: a successful single-document read query matching zero
documents yields `NotFound`, and a backing-store failure of the same query
*also* yields `NotFound` — `read` reports every failure as `NotFound`, so the
caller cannot distinguish the two outcomes; a matching document is returned
as-is.  `read_by_id` is `read` at the `_id` filter. -/
theorem read_error_always_notfound (name : String)
    (store : Doc → Except StoreErr (Option α)) (filter : Doc) :
    (store filter = Except.ok none →
      Model.read name store filter = Except.error (MongooseError.NotFound name))
    ∧ (∀ e, store filter = Except.error e →
      Model.read name store filter = Except.error (MongooseError.NotFound name))
    ∧ (∀ a, store filter = Except.ok (some a) →
      Model.read name store filter = Except.ok a)
    ∧ (∀ i, Model.read_by_id name store i
        = Model.read name store [("_id", Bson.str i)]) := by
  refine ⟨?_, ?_, ?_, fun i => rfl⟩
  · intro h
    unfold Model.read
    rw [h]
  · intro e h
    unfold Model.read
    rw [h]
  · intro a h
    unfold Model.read
    rw [h]

/-- Witness for the amended C1 at concrete stores. -/
theorem read_error_always_notfound_wit :
    Model.read "users" (fun _ => Except.ok (none : Option Unit)) ([] : Doc)
      = Except.error (MongooseError.NotFound "users") :=
  (read_error_always_notfound "users" (fun _ => Except.ok none) []).1 rfl

/-- Counterexample to claim C8: when the backing store rejects the
`create_collection` call because a view with the same name already exists,
`create_view` returns `false` — it does not report the pre-existing view as a
success (the repository's own test comments this: "this will error if the
view exists, but wont panic"). -/
theorem create_view_existing_reports_false_cex :
    Model.create_view "user_posts" (fun _ _ _ => Except.error StoreErr.namespaceExists)
      "users" [] = false := rfl

/-- Claim C8, amended: `create_view` never returns an error-taxonomy value and
never aborts — it totally evaluates to a `Bool` — and that `Bool` is `true`
exactly when the backing store accepted the call; every store rejection,
including "a view with this name already exists", yields `false`. -/
theorem create_view_success_iff_store_ok (name : String)
    (store : String → String → List Doc → Except StoreErr Unit)
    (source : String) (pipeline : List Doc) :
    Model.create_view name store source pipeline = true
      ↔ ∃ u, store name source pipeline = Except.ok u := by
  unfold Model.create_view
  cases h : store name source pipeline with
  | ok u => simp [h]
  | error e => simp [h]

/-- Witness for the amended C8 at a concrete accepting store. -/
theorem create_view_success_iff_store_ok_wit :
    Model.create_view "user_posts" (fun _ _ _ => Except.ok ()) "users" [] = true :=
  (create_view_success_iff_store_ok "user_posts" (fun _ _ _ => Except.ok ())
    "users" []).mpr ⟨(), rfl⟩

/-- Embeds `ListOptions` (src/types.rs, as consumed by `Model::list`): optional limit,
skip and sort. -/
structure ListOptions where
  limit : Option Int
  skip : Option Nat
  sort : Option Doc

/-- Embeds `mongodb::options::FindOptions`, as far as `Model::list` builds it
(src/model.rs:189-196): skip, limit, sort, projection. -/
structure FindOptions where
  skip : Option Nat
  limit : Option Int
  sort : Option Doc
  projection : Option Doc

namespace Model

/-- The cursor loop of `Model::list` (src/model.rs:211-224): push every `Ok`
document, log and `continue` past every per-document cursor error. -/
def listLoop (acc : List α) : List (Except StoreErr α) → List α
  | [] => acc
  | Except.ok d :: rest => listLoop (acc ++ [d]) rest
  | Except.error _ :: rest => listLoop acc rest

/-- Embeds `Model::list` (src/model.rs:178-226).  The backing store's `find` is a
parameter from the optional filter and the built `FindOptions` to either a
failure or a cursor (a list of per-document results).  When `ListOptions` are
supplied, an unset limit defaults to `1000`; when no options are supplied,
`None` is passed through to the store. -/
def list (name : String)
    (store : Option Doc → Option FindOptions → Except StoreErr (List (Except StoreErr α)))
    (filter : Option Doc) (options : Option ListOptions) :
    Except MongooseError (List α) :=
  let opts : Option FindOptions :=
    match options with
    | some o =>
        some ⟨o.skip, if o.limit.isSome then o.limit else some 1000, o.sort, none⟩
    | none => none
  match store filter opts with
  | Except.ok cursor => Except.ok (listLoop [] cursor)
  | Except.error _ => Except.error (MongooseError.List name)

theorem listLoop_eq (cursor : List (Except StoreErr α)) (acc : List α) :
    listLoop acc cursor = acc ++ cursor.filterMap Except.toOption := by
  induction cursor generalizing acc with
  | nil => simp [listLoop]
  | cons r rest ih =>
    cases r with
    | ok d => rw [listLoop, ih]; simp [Except.toOption]
    | error e => rw [listLoop, ih]; simp [Except.toOption]

end Model

/-- Model of a conforming external backing store applying `FindOptions` to the
set of matching documents, per the documented find-many interface (spec §6):
drop `skip` documents, then return at most `limit` documents.  Sort order and
projection do not affect the returned count. -/
def applyFindOptions (docs : List α) : Option FindOptions → List α
  | none => docs
  | some o =>
    let afterSkip := docs.drop (o.skip.getD 0)
    match o.limit with
    | some n => afterSkip.take n.toNat
    | none => afterSkip

/-- A backing store holding the matching documents `docs`, answering every
`find` with the options applied and every document decoding successfully. -/
def honestStore (docs : List α) :
    Option Doc → Option FindOptions → Except StoreErr (List (Except StoreErr α)) :=
  fun _ opts => Except.ok ((applyFindOptions docs opts).map Except.ok)

theorem filterMap_toOption_map_ok (l : List α) :
    List.filterMap Except.toOption (l.map (Except.ok : α → Except StoreErr α)) = l := by
  rw [List.filterMap_map]
  exact List.filterMap_some l

/-- Counterexample to claim C6: `list` called with *no* `ListOptions` passes no
find options at all to the backing store — no default limit of 1000 is
applied — so with 1001 matching documents all 1001 are returned. -/
theorem list_no_options_unbounded_cex :
    Model.list "users" (honestStore (List.replicate 1001 Unit.unit)) none none
      = Except.ok (List.replicate 1001 Unit.unit)
    ∧ 1000 < (List.replicate 1001 Unit.unit).length := by
  constructor
  · show Except.ok (Model.listLoop []
      ((List.replicate 1001 Unit.unit).map Except.ok)) = _
    rw [Model.listLoop_eq, List.nil_append, filterMap_toOption_map_ok]
  · rw [List.length_replicate]
    norm_num

/-- Claim C6, amended: when `ListOptions` *are* supplied with an unset limit,
the limit defaults to 1000 and at most 1000 records are returned by a
conforming store; when no `ListOptions` are supplied at all, no limit is
applied and the result is unbounded (see the counterexample). -/
theorem list_default_limit_bounded (name : String) (docs : List α)
    (filter : Option Doc) (skip : Option Nat) (sort : Option Doc) :
    ∃ l, Model.list name (honestStore docs) filter (some ⟨none, skip, sort⟩)
        = Except.ok l
      ∧ l.length ≤ 1000 := by
  refine ⟨(docs.drop (skip.getD 0)).take 1000, ?_, ?_⟩
  · show Except.ok (Model.listLoop [] ((applyFindOptions docs
      (some ⟨skip, some 1000, sort, none⟩)).map Except.ok)) = _
    rw [Model.listLoop_eq, List.nil_append, filterMap_toOption_map_ok]
    rfl
  · exact List.length_take_le _ _

/-- Claim C10: once the backing store's initial `find` succeeds, `list` never
returns an error — every per-document cursor failure is skipped — and the
result is exactly the successfully decoded documents in cursor order. -/
theorem list_skips_cursor_errors (name : String) (filter : Option Doc)
    (options : Option ListOptions) (cursor : List (Except StoreErr α)) :
    Model.list name (fun _ _ => Except.ok cursor) filter options
      = Except.ok (cursor.filterMap Except.toOption) := by
  cases options <;> simp [Model.list, Model.listLoop_eq]

namespace Model

/-- The cursor loop of `Model::aggregate_raw` (src/model.rs:332-355): push each
decoded document; any cursor error or decode failure aborts the whole call
with the `Aggregate` error. -/
def aggLoop (name : String) (decode : Doc → Except DecodeErr τ)
    (acc : List τ) : List (Except StoreErr Doc) → Except MongooseError (List τ)
  | [] => Except.ok acc
  | Except.ok d :: rest =>
      match decode d with
      | Except.ok data => aggLoop name decode (acc ++ [data]) rest
      | Except.error _ => Except.error (MongooseError.Aggregate name)
  | Except.error _ :: _ => Except.error (MongooseError.Aggregate name)

/-- Embeds `Model::aggregate_raw` (src/model.rs:318-357).  The backing store's
`aggregate` maps the raw pipeline to a failure or a cursor of per-document
results; `bson::from_document::<T>` is the `decode` parameter. -/
def aggregate_raw (name : String)
    (store : List Doc → Except StoreErr (List (Except StoreErr Doc)))
    (decode : Doc → Except DecodeErr τ) (pipeline : List Doc) :
    Except MongooseError (List τ) :=
  match store pipeline with
  | Except.ok results => aggLoop name decode [] results
  | Except.error _ => Except.error (MongooseError.Aggregate name)

/-- Embeds `Model::aggregate` (src/model.rs:359-364): build the raw pipeline from the
typed stages and delegate to `aggregate_raw`. -/
def aggregate (name : String)
    (store : List Doc → Except StoreErr (List (Except StoreErr Doc)))
    (decode : Doc → Except DecodeErr τ) (stages : List PipelineStage) :
    Except MongooseError (List τ) :=
  aggregate_raw name store decode (create_pipeline stages)

theorem aggLoop_bad (name : String) (decode : Doc → Except DecodeErr τ)
    (results : List (Except StoreErr Doc)) :
    (∃ r ∈ results, ∀ d, r = Except.ok d → ∃ e, decode d = Except.error e) →
    ∀ acc, aggLoop name decode acc results
      = Except.error (MongooseError.Aggregate name) := by
  induction results with
  | nil => intro h; simp at h
  | cons r rest ih =>
    intro hbad acc
    obtain ⟨r', hr', hbad'⟩ := hbad
    cases r with
    | error e => rfl
    | ok d =>
      cases hdec : decode d with
      | error e => simp [aggLoop, hdec]
      | ok v =>
        rcases List.mem_cons.mp hr' with h1 | h1
        · obtain ⟨e, he⟩ := hbad' d h1
          rw [hdec] at he
          simp at he
        · simp only [aggLoop, hdec]
          exact ih ⟨r', h1, hbad'⟩ _

end Model

namespace Model

/-- The successfully decoded documents of a cursor, in cursor order. -/
def decodedDocs (decode : Doc → Except DecodeErr τ)
    (results : List (Except StoreErr Doc)) : List τ :=
  results.filterMap (fun r =>
    match r with
    | Except.ok d => (decode d).toOption
    | Except.error _ => none)

theorem aggLoop_good (name : String) (decode : Doc → Except DecodeErr τ)
    (results : List (Except StoreErr Doc)) :
    (∀ r ∈ results, ∃ d v, r = Except.ok d ∧ decode d = Except.ok v) →
    ∀ acc, aggLoop name decode acc results
      = Except.ok (acc ++ decodedDocs decode results) := by
  induction results with
  | nil => intro _ acc; simp [aggLoop, decodedDocs]
  | cons r rest ih =>
    intro hgood acc
    obtain ⟨d, v, hrd, hdv⟩ := hgood r (List.mem_cons_self r rest)
    subst hrd
    simp only [aggLoop, hdv]
    rw [ih (fun q hq => hgood q (List.mem_cons_of_mem _ hq)) (acc ++ [v])]
    simp [decodedDocs, hdv, Except.toOption]

end Model

/-- Claim C7: with the backing store answering the aggregation with a given
cursor, a decode failure (or cursor error) on any one result document makes
`aggregate_raw` return the `Aggregate` error for the whole call with no
partial list; when every document decodes, the full decoded list is returned
in order. -/
theorem aggregate_raw_all_or_nothing (name : String)
    (decode : Doc → Except DecodeErr τ)
    (results : List (Except StoreErr Doc)) (pipeline : List Doc) :
    ((∃ r ∈ results, ∀ d, r = Except.ok d → ∃ e, decode d = Except.error e) →
      Model.aggregate_raw name (fun _ => Except.ok results) decode pipeline
        = Except.error (MongooseError.Aggregate name))
    ∧ ((∀ r ∈ results, ∃ d v, r = Except.ok d ∧ decode d = Except.ok v) →
      Model.aggregate_raw name (fun _ => Except.ok results) decode pipeline
        = Except.ok (Model.decodedDocs decode results)) := by
  constructor
  · intro h
    show Model.aggLoop name decode [] results = _
    exact Model.aggLoop_bad name decode results h []
  · intro h
    show Model.aggLoop name decode [] results = _
    rw [Model.aggLoop_good name decode results h []]
    rw [List.nil_append]

/-- Witness for C7 at a one-document cursor: the identity decoder returns the
document, the always-failing decoder aborts the call with `Aggregate`. -/
theorem aggregate_raw_all_or_nothing_wit :
    Model.aggregate_raw "posts" (fun _ => Except.ok [Except.ok ([] : Doc)])
        (fun d => (Except.ok d : Except DecodeErr Doc)) []
      = Except.ok [([] : Doc)]
    ∧ Model.aggregate_raw "posts" (fun _ => Except.ok [Except.ok ([] : Doc)])
        (fun _ => (Except.error ⟨"bad"⟩ : Except DecodeErr Doc)) []
      = Except.error (MongooseError.Aggregate "posts") := by
  constructor
  · exact (aggregate_raw_all_or_nothing "posts"
      (fun d => (Except.ok d : Except DecodeErr Doc)) [Except.ok ([] : Doc)] []).2
      (by
        intro r hr
        rw [List.mem_singleton] at hr
        exact ⟨[], [], hr, rfl⟩)
  · exact (aggregate_raw_all_or_nothing "posts"
      (fun _ => (Except.error ⟨"bad"⟩ : Except DecodeErr Doc)) [Except.ok ([] : Doc)] []).1
      ⟨Except.ok ([] : Doc), List.mem_singleton.mpr rfl, fun d _ => ⟨⟨"bad"⟩, rfl⟩⟩
